import Mathlib

/-!
A shallow embedding of the session/memory stores of the `aiintime-base-agent`
repository (`services/session/redis_session.py` and
`services/memory/redis_memory.py`).

Modelling conventions:
* The Redis keyspace is split into four typed maps, reflecting the four
  disjoint key namespaces used by the code (`session:...`, `state:app:...`,
  `state:user:...`, `memory:...`).  Maps are association lists; `setA`
  mirrors dict/RedisJSON assignment (replace in place, else append) and
  `getA` is lookup of the first matching key.
* JSON values carried by state entries are opaque to every operation in the
  code, so they are modelled as `String`.
* `uuid.uuid4()` and `time.time()` are nondeterministic inputs; they are
  passed in as explicit parameters (`freshId`, `now`).  Timestamps are
  seconds since the epoch and hence modelled as `Nat`.
* RedisJSON path writes `$.state.k` on a missing document raise in the real
  backend; no claim exercises that corner and the model leaves the store
  unchanged there (`updA` on an absent key is the identity).
* Python truthiness tests (`if config.num_recent_events:`, `if not doc:`,
  `if part.get("text")`, `session_id and session_id.strip()`) are translated
  as the corresponding emptiness/zero tests.
-/

namespace AIT

/-- Python `str.startswith`, on the character lists of the strings. -/
def pyStartsWith (s p : String) : Bool := p.data.isPrefixOf s.data

/-- Python `str.removeprefix`, on the character lists of the strings. -/
def removePrefixPy (s p : String) : String :=
  if pyStartsWith s p then String.mk (s.data.drop p.data.length) else s

/-- Python `str.strip()`: drop leading and trailing whitespace. -/
def pyStrip (s : String) : String :=
  String.mk (((s.data.dropWhile Char.isWhitespace).reverse.dropWhile
    Char.isWhitespace).reverse)

/-- The constant `google.adk.sessions.state.State.APP_PREFIX`. -/
def appPrefixStr : String := "app:"

/-- The constant `google.adk.sessions.state.State.USER_PREFIX`. -/
def userPrefixStr : String := "user:"

/-- Association-list lookup (first matching key), modelling dict access and
RedisJSON `get` on a keyed map. -/
def getA {κ α : Type} [DecidableEq κ] : List (κ × α) → κ → Option α
  | [], _ => none
  | (k1, v) :: tl, k => if k1 = k then some v else getA tl k

/-- Association-list write, modelling dict assignment / RedisJSON `set`:
replace the first entry with this key, else append at the end. -/
def setA {κ α : Type} [DecidableEq κ] : List (κ × α) → κ → α → List (κ × α)
  | [], k, v => [(k, v)]
  | (k1, v1) :: tl, k, v =>
    if k1 = k then (k1, v) :: tl else (k1, v1) :: setA tl k v

/-- Update the value at a key when present; identity when absent. -/
def updA {κ α : Type} [DecidableEq κ] : List (κ × α) → κ → (α → α) → List (κ × α)
  | [], _, _ => []
  | (k1, v) :: tl, k, f =>
    if k1 = k then (k1, f v) :: tl else (k1, v) :: updA tl k f

/-- One optional-text part of the content of an event. -/
structure Part where
  text : Option String
  deriving DecidableEq, Repr

/-- Event content: a role and an ordered list of parts. -/
structure Content where
  role : String
  parts : List Part
  deriving DecidableEq, Repr

/-- Field `event.actions`: the optional state-delta mapping, in insertion order. -/
structure EventActions where
  state_delta : List (String × String)
  deriving DecidableEq, Repr

/-- One event record, with the fields the stores consume. -/
structure Event where
  author : String
  timestamp : Nat
  content : Option Content
  actions : Option EventActions
  deriving DecidableEq, Repr

/-- A session state mapping (string key to opaque JSON value). -/
abbrev StateMap := List (String × String)

/-- The stored session document `session:{app}:{user}:{id}`. -/
structure SessionDoc where
  id : String
  app_name : String
  user_id : String
  state : StateMap
  events : List Event
  last_update_time : Nat
  deriving DecidableEq, Repr

/-- The in-memory `Session` object handed to and returned by the service. -/
structure Session where
  app_name : String
  user_id : String
  id : String
  state : StateMap
  events : List Event
  last_update_time : Nat
  deriving DecidableEq, Repr

/-- The four disjoint Redis key namespaces used by the two services. -/
structure Store where
  sessions : List ((String × String × String) × SessionDoc)
  appState : List (String × StateMap)
  userState : List ((String × String) × StateMap)
  memory : List ((String × String) × List (String × List Event))
  deriving DecidableEq, Repr

/-- Config `GetSessionConfig`: optional trailing-window and time-lower-bound filters. -/
structure GetSessionConfig where
  num_recent_events : Option Nat
  after_timestamp : Option Nat
  deriving DecidableEq, Repr

/-- Python slice `events[-n:]` for `n ≥ 1`: the last `n` elements (all of
them when fewer than `n` exist). -/
def lastN {α : Type} (n : Nat) (xs : List α) : List α :=
  xs.drop (xs.length - n)

/-- One scope merge of `_merge_state`: for each `(k, v)` in the scope
document, assign `state[pre ++ k] = v`. -/
def mergeScope (pre : String) (scope : List (String × String)) (base : StateMap) :
    StateMap :=
  scope.foldl (fun m kv => setA m (pre ++ kv.1) kv.2) base

/-- The state produced by `_merge_state`: app scope injected under `app:`,
then user scope injected under `user:`, on top of the base state. -/
def mergedStateMap (st : Store) (app user : String) (base : StateMap) : StateMap :=
  mergeScope userPrefixStr ((getA st.userState (app, user)).getD [])
    (mergeScope appPrefixStr ((getA st.appState app).getD []) base)

/-- Operation `RedisSessionService._merge_state`. -/
def merge_state (st : Store) (app user : String) (s : Session) : Session :=
  { s with state := mergedStateMap st app user s.state }

/-- Operation `RedisSessionService.create_session`.  Here `freshId` stands for the
`uuid.uuid4()` draw and `now` for `time.time()`. -/
def create_session (st : Store) (app user : String) (state : Option StateMap)
    (session_id : Option String) (freshId : String) (now : Nat) :
    Store × Session :=
  let sid :=
    match session_id with
    | some s => if pyStrip s ≠ "" then pyStrip s else freshId
    | none => freshId
  let doc : SessionDoc :=
    ⟨sid, app, user, state.getD [], [], now⟩
  let st' := { st with sessions := setA st.sessions (app, user, sid) doc }
  let s : Session := ⟨app, user, sid, state.getD [], [], now⟩
  (st', merge_state st' app user s)

/-- The event filtering performed by `get_session` when a config is given:
`events[-n:]` when `num_recent_events` is truthy, then the
`timestamp >= after_timestamp` filter when `after_timestamp` is truthy. -/
def applyConfig (config : Option GetSessionConfig) (evs : List Event) : List Event :=
  match config with
  | none => evs
  | some c =>
    let e1 :=
      match c.num_recent_events with
      | some n => if n ≠ 0 then lastN n evs else evs
      | none => evs
    match c.after_timestamp with
    | some t => if t ≠ 0 then e1.filter (fun e => t ≤ e.timestamp) else e1
    | none => e1

/-- Operation `RedisSessionService.get_session`. -/
def get_session (st : Store) (app user sid : String)
    (config : Option GetSessionConfig) : Option Session :=
  match getA st.sessions (app, user, sid) with
  | none => none
  | some doc =>
    let s : Session :=
      ⟨doc.app_name, doc.user_id, doc.id, doc.state,
        applyConfig config doc.events, doc.last_update_time⟩
    some (merge_state st app user s)

/-- Operation `RedisSessionService.delete_session`. -/
def delete_session (st : Store) (app user sid : String) : Store :=
  { st with sessions := (st.sessions).filter (fun kv => kv.1 ≠ (app, user, sid)) }

/-- Apply `f` to the session document at `k` when it exists (a RedisJSON
path write on that document). -/
def updateSessionDoc (st : Store) (k : String × String × String)
    (f : SessionDoc → SessionDoc) : Store :=
  { st with sessions := updA st.sessions k f }

/-- One iteration of the state-delta loop of `append_event`: route the delta
by key prefix to the app-scope document, the user-scope document, or the
session document, and mirror it into the local session state.  The
exists-check-then-create-then-set done by the code on a scope document amounts to writing
into the (possibly empty) current scope state. -/
def applyDelta (app user : String) (skey : String × String × String)
    (p : Store × Session) (kv : String × String) : Store × Session :=
  let st := p.1
  let s := p.2
  let dk := kv.1
  let v := kv.2
  if pyStartsWith dk appPrefixStr then
    let ck := removePrefixPy dk appPrefixStr
    let cur := (getA st.appState app).getD []
    ({ st with appState := setA st.appState app (setA cur ck v) },
      { s with state := setA s.state dk v })
  else if pyStartsWith dk userPrefixStr then
    let ck := removePrefixPy dk userPrefixStr
    let cur := (getA st.userState (app, user)).getD []
    ({ st with userState := setA st.userState (app, user) (setA cur ck v) },
      { s with state := setA s.state dk v })
  else
    (updateSessionDoc st skey (fun d => { d with state := setA d.state dk v }),
      { s with state := setA s.state dk v })

/-- Operation `RedisSessionService.append_event`: update the local session, route each
state delta, persist `last_update_time`, append the serialized event to the
event array of the document, and return the event unchanged. -/
def append_event (st : Store) (session : Session) (event : Event) :
    Store × Session × Event :=
  let skey := (session.app_name, session.user_id, session.id)
  let s1 : Session :=
    { session with last_update_time := event.timestamp,
                   events := session.events ++ [event] }
  let p :=
    match event.actions with
    | some acts =>
      acts.state_delta.foldl (applyDelta session.app_name session.user_id skey)
        (st, s1)
    | none => (st, s1)
  let st2 := updateSessionDoc p.1 skey
    (fun d => { d with last_update_time := event.timestamp })
  let st3 := updateSessionDoc st2 skey
    (fun d => { d with events := d.events ++ [event] })
  (st3, p.2, event)

/-- Fold a list of `append_event` calls over a store and a session, the way
a caller issuing them in sequence on the same session object would. -/
def appendAll (st : Store) (s : Session) (es : List Event) : Store × Session :=
  es.foldl (fun p e => ((append_event p.1 p.2 e).1, (append_event p.1 p.2 e).2.1))
    (st, s)

/-- A state key is session-scoped (unprefixed) when it carries neither the
`app:` nor the `user:` reserved prefix. -/
def unprefKey (k : String) : Bool :=
  !(pyStartsWith k appPrefixStr) && !(pyStartsWith k userPrefixStr)

/-- The effective (merged) state a reader of the given session observes. -/
def effState (st : Store) (app user sid : String) : Option StateMap :=
  (get_session st app user sid none).map Session.state

/-! ### Memory service -/

/-- Maximal runs of ASCII alphabetic characters, accumulator-style
(`re.findall` over `[A-Za-z]+`). -/
def alphaRunsAux : List Char → List Char → List (List Char)
  | [], acc => if acc.isEmpty then [] else [acc.reverse]
  | c :: cs, acc =>
    if c.isAlpha then alphaRunsAux cs (c :: acc)
    else if acc.isEmpty then alphaRunsAux cs []
    else acc.reverse :: alphaRunsAux cs []

/-- Function `_extract_words_lower`: the alphabetic words of a string, lowercased.
The Python code builds a set; membership is what every use depends on, so
the model keeps the list of occurrences. -/
def wordsLower (s : String) : List String :=
  (alphaRunsAux s.data []).map (fun l => String.mk (l.map Char.toLower))

/-- Python `" ".join(texts)`. -/
def joinSpace : List String → String
  | [] => ""
  | [t] => t
  | t :: ts => t ++ " " ++ joinSpace ts

/-- Truthiness test `event.content and event.content.parts` used by
`add_session_to_memory`. -/
def hasContentParts (e : Event) : Bool :=
  match e.content with
  | some c => !c.parts.isEmpty
  | none => false

/-- Operation `RedisMemoryService.add_session_to_memory`: keep the events with
non-empty content; when none remain, do nothing; otherwise overwrite the
slice this session owns inside the per-user memory document. -/
def add_session_to_memory (st : Store) (s : Session) : Store :=
  let evs := s.events.filter hasContentParts
  if evs.isEmpty then st
  else
    let doc := (getA st.memory (s.app_name, s.user_id)).getD []
    { st with memory := setA st.memory (s.app_name, s.user_id) (setA doc s.id evs) }

/-- A memory search result: content, author, timestamp.  The timestamp
formatting helper of the ADK library is modelled as the identity. -/
structure MemoryEntry where
  content : Content
  author : String
  timestamp : Nat
  deriving DecidableEq, Repr

/-- The non-empty texts among the parts of a content (`part.get("text")` truthy). -/
def partTexts (c : Content) : List String :=
  c.parts.filterMap (fun p =>
    match p.text with
    | some t => if t = "" then none else some t
    | none => none)

/-- The `MemoryEntry` built for a matching stored event. -/
def eventEntry (c : Content) (e : Event) : MemoryEntry :=
  ⟨⟨c.role, (partTexts c).map (fun t => ⟨some t⟩)⟩, e.author, e.timestamp⟩

/-- The per-event body of the `search_memory` loop, with its early-skip
guards (no content, no parts, no non-empty texts, no alphabetic words), and
the keyword test `any(query_word in words_in_event ...)`. -/
def eventMatchStep (qws : List String) (acc : List MemoryEntry) (e : Event) :
    List MemoryEntry :=
  match e.content with
  | none => acc
  | some c =>
    if c.parts.isEmpty then acc
    else
      let texts := partTexts c
      if texts.isEmpty then acc
      else
        let ews := wordsLower (joinSpace texts)
        if ews.isEmpty then acc
        else if qws.any (fun w => ews.contains w) then acc ++ [eventEntry c e]
        else acc

/-- Operation `RedisMemoryService.search_memory`. -/
def search_memory (st : Store) (app user : String) (query : String) :
    List MemoryEntry :=
  match getA st.memory (app, user) with
  | none => []
  | some doc =>
    let qws := wordsLower query
    doc.foldl (fun acc kv => kv.2.foldl (eventMatchStep qws) acc) []

/-- All texts carried by the parts of an event, empty or not — the
"concatenated text" material named by the specification. -/
def allTexts (e : Event) : List String :=
  match e.content with
  | none => []
  | some c => c.parts.filterMap (fun p => p.text)

/-- The tokenization the specification describes for an event: the lowercase
alphabetic words of the concatenated text of the event. -/
def eventWords (e : Event) : List String := wordsLower (joinSpace (allTexts e))

/-- The match predicate of the specification: the word set of the event
shares at least one word with the word set of the query. -/
def specMatches (q : String) (e : Event) : Bool :=
  (eventWords e).any (fun w => (wordsLower q).contains w)

/-- The event lists stored in a memory document, flattened in document
order. -/
def docEvents (doc : List (String × List Event)) : List Event :=
  (doc.map Prod.snd).flatten

/-- The projection the specification describes for one stored event: an
entry exactly when the event word set meets the query word set. -/
def specProject (q : String) (e : Event) : Option MemoryEntry :=
  match e.content with
  | some c => if specMatches q e then some (eventEntry c e) else none
  | none => none

/-- The result set the specification describes: one projected entry per
stored event whose word set meets the query word set. -/
def specSearch (doc : List (String × List Event)) (q : String) :
    List MemoryEntry :=
  (docEvents doc).filterMap (specProject q)

/-! ### Concrete fixtures used by spot-check theorems -/

/-- A fixture store: app `a` has sessions for two different users. -/
def twoUserStore : Store :=
  ⟨[(("a", "u1", "s1"), ⟨"s1", "a", "u1", [], [], 0⟩),
    (("a", "u2", "s2"), ⟨"s2", "a", "u2", [], [], 0⟩)], [], [], []⟩

/-- A fixture event carrying a single `app:`-prefixed state delta. -/
def appDeltaEv : Event := ⟨"u", 3, none, some ⟨[("app:x", "dark")]⟩⟩

/-- A fixture event with text content, for memory spot checks. -/
def memEv : Event := ⟨"user", 7, some ⟨"user", [⟨some "Hello world"⟩]⟩, none⟩

/-- A fixture store whose memory document holds one ingested session. -/
def memStore : Store := ⟨[], [], [], [(("a", "u"), [("s1", [memEv])])]⟩

/-! ### Association-list lemmas -/

theorem getA_setA_self {κ α : Type} [DecidableEq κ] (m : List (κ × α)) (k : κ) (v : α) :
    getA (setA m k v) k = some v := by
  induction m with
  | nil => simp [setA, getA]
  | cons hd tl ih =>
    by_cases h : hd.1 = k <;> simp [setA, getA, h, ih]

theorem getA_setA_ne {κ α : Type} [DecidableEq κ] (m : List (κ × α)) (k k2 : κ) (v : α)
    (h : k ≠ k2) : getA (setA m k v) k2 = getA m k2 := by
  induction m with
  | nil => simp [setA, getA, h]
  | cons hd tl ih =>
    by_cases h1 : hd.1 = k <;> simp [setA, getA, h1, ih, h]

theorem setA_setA_self {κ α : Type} [DecidableEq κ] (m : List (κ × α)) (k : κ) (v : α) :
    setA (setA m k v) k v = setA m k v := by
  induction m with
  | nil => simp [setA]
  | cons hd tl ih =>
    by_cases h : hd.1 = k <;> simp [setA, h, ih]

theorem getA_updA {κ α : Type} [DecidableEq κ] (m : List (κ × α)) (k k2 : κ)
    (f : α → α) :
    getA (updA m k f) k2 = if k = k2 then (getA m k).map f else getA m k2 := by
  induction m with
  | nil => simp [updA, getA]
  | cons hd tl ih =>
    by_cases h1 : hd.1 = k
    · subst h1
      by_cases h2 : hd.1 = k2
      · subst h2; simp [updA, getA]
      · simp [updA, getA, h2]
    · by_cases h2 : hd.1 = k2
      · subst h2
        have hne : ¬ k = hd.1 := fun hh => h1 hh.symm
        simp [updA, getA, h1, hne]
      · simp [updA, getA, h1, h2, ih]

theorem mem_setA_self {κ α : Type} [DecidableEq κ] (m : List (κ × α)) (k : κ) (v : α) :
    (k, v) ∈ setA m k v := by
  induction m with
  | nil => simp [setA]
  | cons hd tl ih =>
    by_cases h : hd.1 = k <;> simp [setA, h, ih]

theorem keys_setA_eq {κ α : Type} [DecidableEq κ] (m : List (κ × α)) (k : κ) (v : α) :
    (setA m k v).map Prod.fst =
      if k ∈ m.map Prod.fst then m.map Prod.fst else m.map Prod.fst ++ [k] := by
  induction m with
  | nil => simp [setA]
  | cons hd tl ih =>
    by_cases h : hd.1 = k
    · subst h; simp [setA]
    · have hne : ¬ k = hd.1 := fun hh => h hh.symm
      by_cases h2 : k ∈ tl.map Prod.fst <;> simp [setA, h, hne, h2, ih]

theorem keys_setA_nodup {κ α : Type} [DecidableEq κ] (m : List (κ × α)) (k : κ) (v : α)
    (h : (m.map Prod.fst).Nodup) : ((setA m k v).map Prod.fst).Nodup := by
  rw [keys_setA_eq]
  by_cases hk : k ∈ m.map Prod.fst
  · simpa [hk] using h
  · rw [if_neg hk]
    rw [List.nodup_append]
    refine ⟨h, List.nodup_singleton k, ?_⟩
    intro a ha hb
    simp only [List.mem_singleton] at hb
    subst hb
    exact hk ha

/-! ### String prefix lemmas -/

theorem string_data_mk (l : List Char) : (String.mk l).data = l := rfl

theorem string_eq_of_data {s t : String} (h : s.data = t.data) : s = t := by
  cases s; cases t; simp_all

theorem pyStartsWith_append (p x : String) : pyStartsWith (p ++ x) p = true := by
  unfold pyStartsWith
  rw [String.data_append]
  exact List.isPrefixOf_iff_prefix.mpr (List.prefix_append p.data x.data)

theorem removePrefixPy_append (p x : String) : removePrefixPy (p ++ x) p = x := by
  unfold removePrefixPy
  rw [pyStartsWith_append]
  simp only [if_pos]
  apply string_eq_of_data
  rw [string_data_mk, String.data_append, List.drop_left]

theorem string_append_left_inj (p : String) {a b : String} (h : p ++ a = p ++ b) :
    a = b := by
  apply string_eq_of_data
  have := congrArg String.data h
  rw [String.data_append, String.data_append] at this
  exact List.append_cancel_left this

theorem user_ne_app (a b : String) : userPrefixStr ++ a ≠ appPrefixStr ++ b := by
  intro h
  have := congrArg String.data h
  rw [String.data_append, String.data_append] at this
  simp [userPrefixStr, appPrefixStr] at this

theorem unprefKey_app (k : String) : unprefKey (appPrefixStr ++ k) = false := by
  simp [unprefKey, pyStartsWith_append]

theorem unprefKey_user (k : String) : unprefKey (userPrefixStr ++ k) = false := by
  simp [unprefKey, pyStartsWith_append]

/-! ### Scope-merge lemmas -/

theorem mergeScope_nil (pre : String) (base : StateMap) :
    mergeScope pre [] base = base := rfl

theorem mergeScope_cons (pre : String) (hd : String × String)
    (tl : List (String × String)) (base : StateMap) :
    mergeScope pre (hd :: tl) base = mergeScope pre tl (setA base (pre ++ hd.1) hd.2) :=
  rfl

theorem getA_mergeScope_ne (pre : String) (scope : List (String × String))
    (base : StateMap) (t : String) (h : ∀ kv ∈ scope, pre ++ kv.1 ≠ t) :
    getA (mergeScope pre scope base) t = getA base t := by
  induction scope generalizing base with
  | nil => rfl
  | cons hd tl ih =>
    rw [mergeScope_cons, ih _ (fun kv hkv => h kv (List.mem_cons_of_mem hd hkv)),
      getA_setA_ne _ _ _ _ (h hd (List.mem_cons_self hd tl))]

theorem getA_mergeScope_mem (pre : String) (scope : List (String × String))
    (base : StateMap) (x v : String) (h1 : (scope.map Prod.fst).Nodup)
    (h2 : (x, v) ∈ scope) :
    getA (mergeScope pre scope base) (pre ++ x) = some v := by
  induction scope generalizing base with
  | nil => cases h2
  | cons hd tl ih =>
    rw [mergeScope_cons]
    rw [List.map_cons, List.nodup_cons] at h1
    rcases List.mem_cons.mp h2 with h2 | h2
    · subst h2
      have hx : x ∉ tl.map Prod.fst := h1.1
      have hne : ∀ kv ∈ tl, pre ++ kv.1 ≠ pre ++ x := fun kv hkv heq =>
        hx ((string_append_left_inj pre heq) ▸ List.mem_map_of_mem Prod.fst hkv)
      rw [getA_mergeScope_ne _ _ _ _ hne]
      exact getA_setA_self base (pre ++ x) v
    · exact ih _ h1.2 h2

theorem filter_setA_pref (m : StateMap) (k v : String) (hk : unprefKey k = false) :
    (setA m k v).filter (fun kv => unprefKey kv.1) =
      m.filter (fun kv => unprefKey kv.1) := by
  induction m with
  | nil => simp [setA, hk]
  | cons hd tl ih =>
    by_cases h : hd.1 = k
    · subst h
      simp [setA, List.filter_cons, hk]
    · simp only [setA, h, if_neg, List.filter_cons]
      cases hu : unprefKey hd.1 <;> simp [hu, ih]

theorem filter_mergeScope (pre : String) (scope : List (String × String))
    (base : StateMap) (hpre : ∀ k, unprefKey (pre ++ k) = false) :
    (mergeScope pre scope base).filter (fun kv => unprefKey kv.1) =
      base.filter (fun kv => unprefKey kv.1) := by
  induction scope generalizing base with
  | nil => rfl
  | cons hd tl ih => rw [mergeScope_cons, ih, filter_setA_pref _ _ _ (hpre hd.1)]

theorem filter_mergedStateMap (st : Store) (app user : String) (base : StateMap) :
    (mergedStateMap st app user base).filter (fun kv => unprefKey kv.1) =
      base.filter (fun kv => unprefKey kv.1) := by
  unfold mergedStateMap
  rw [filter_mergeScope _ _ _ unprefKey_user, filter_mergeScope _ _ _ unprefKey_app]

/-! ### Projection lemmas for the write path -/

theorem getA_updA_proj {κ α β : Type} [DecidableEq κ] (m : List (κ × α)) (k k2 : κ)
    (f : α → α) (proj : α → β) (hf : ∀ d, proj (f d) = proj d) :
    (getA (updA m k f) k2).map proj = (getA m k2).map proj := by
  rw [getA_updA]
  by_cases h : k = k2
  · subst h
    cases getA m k <;> simp [hf]
  · simp [h]

theorem applyDelta_proj (a u : String) (sk : String × String × String)
    (p : Store × Session) (kv : String × String) :
    (applyDelta a u sk p kv).2.app_name = p.2.app_name ∧
    (applyDelta a u sk p kv).2.user_id = p.2.user_id ∧
    (applyDelta a u sk p kv).2.id = p.2.id ∧
    (applyDelta a u sk p kv).2.events = p.2.events ∧
    ∀ k2, (getA (applyDelta a u sk p kv).1.sessions k2).map SessionDoc.events =
      (getA p.1.sessions k2).map SessionDoc.events := by
  refine ⟨?_, ?_, ?_, ?_, fun k2 => ?_⟩ <;>
    cases h1 : pyStartsWith kv.1 appPrefixStr <;>
      cases h2 : pyStartsWith kv.1 userPrefixStr <;>
        simp only [applyDelta, updateSessionDoc, h1, h2, Bool.false_eq_true,
          if_true, if_false] <;>
        first
          | rfl
          | exact getA_updA_proj _ _ _ _ _ (fun d => rfl)

theorem deltaFold_proj (a u : String) (sk : String × String × String)
    (l : List (String × String)) (p : Store × Session) :
    (l.foldl (applyDelta a u sk) p).2.app_name = p.2.app_name ∧
    (l.foldl (applyDelta a u sk) p).2.user_id = p.2.user_id ∧
    (l.foldl (applyDelta a u sk) p).2.id = p.2.id ∧
    (l.foldl (applyDelta a u sk) p).2.events = p.2.events ∧
    ∀ k2, (getA (l.foldl (applyDelta a u sk) p).1.sessions k2).map SessionDoc.events =
      (getA p.1.sessions k2).map SessionDoc.events := by
  induction l generalizing p with
  | nil => exact ⟨rfl, rfl, rfl, rfl, fun _ => rfl⟩
  | cons hd tl ih =>
    rw [List.foldl_cons]
    obtain ⟨i1, i2, i3, i4, i5⟩ := ih (applyDelta a u sk p hd)
    obtain ⟨a1, a2, a3, a4, a5⟩ := applyDelta_proj a u sk p hd
    exact ⟨i1.trans a1, i2.trans a2, i3.trans a3, i4.trans a4,
      fun k2 => (i5 k2).trans (a5 k2)⟩

theorem append_event_session_fields (st : Store) (s : Session) (e : Event) :
    (append_event st s e).2.1.app_name = s.app_name ∧
    (append_event st s e).2.1.user_id = s.user_id ∧
    (append_event st s e).2.1.id = s.id ∧
    (append_event st s e).2.1.events = s.events ++ [e] := by
  unfold append_event
  cases e.actions with
  | none => exact ⟨rfl, rfl, rfl, rfl⟩
  | some acts =>
    obtain ⟨i1, i2, i3, i4, _⟩ := deltaFold_proj s.app_name s.user_id
      (s.app_name, s.user_id, s.id) acts.state_delta
      (st, { s with last_update_time := e.timestamp, events := s.events ++ [e] })
    exact ⟨i1, i2, i3, i4⟩

theorem append_event_returns (st : Store) (s : Session) (e : Event) :
    (append_event st s e).2.2 = e := rfl

theorem append_event_doc_events (st : Store) (s : Session) (e : Event)
    (k2 : String × String × String) :
    (getA (append_event st s e).1.sessions k2).map SessionDoc.events =
      if (s.app_name, s.user_id, s.id) = k2
      then ((getA st.sessions k2).map SessionDoc.events).map (fun l => l ++ [e])
      else (getA st.sessions k2).map SessionDoc.events := by
  unfold append_event
  have base : ∀ (st1 : Store),
      (getA (updateSessionDoc (updateSessionDoc st1 (s.app_name, s.user_id, s.id)
          (fun d => { d with last_update_time := e.timestamp }))
          (s.app_name, s.user_id, s.id)
          (fun d => { d with events := d.events ++ [e] })).sessions k2).map
        SessionDoc.events =
      if (s.app_name, s.user_id, s.id) = k2
      then ((getA st1.sessions k2).map SessionDoc.events).map (fun l => l ++ [e])
      else (getA st1.sessions k2).map SessionDoc.events := by
    intro st1
    show (getA (updA (updA st1.sessions _ _) _ _) k2).map SessionDoc.events = _
    by_cases h : (s.app_name, s.user_id, s.id) = k2
    · subst h
      rw [getA_updA, getA_updA]
      cases getA st1.sessions (s.app_name, s.user_id, s.id) <;> simp
    · simp [getA_updA, h]
  cases e.actions with
  | none => exact base st
  | some acts =>
    obtain ⟨_, _, _, _, i5⟩ := deltaFold_proj s.app_name s.user_id
      (s.app_name, s.user_id, s.id) acts.state_delta
      (st, { s with last_update_time := e.timestamp, events := s.events ++ [e] })
    refine (base _).trans ?_
    by_cases h : (s.app_name, s.user_id, s.id) = k2
    · rw [if_pos h, if_pos h, i5 k2]
    · rw [if_neg h, if_neg h, i5 k2]

/-! ### Read-path projection lemmas -/

theorem get_session_events (st : Store) (app user sid : String)
    (config : Option GetSessionConfig) :
    (get_session st app user sid config).map Session.events =
      (getA st.sessions (app, user, sid)).map
        (fun d => applyConfig config d.events) := by
  cases h : getA st.sessions (app, user, sid) <;>
    simp [get_session, h, merge_state]

theorem get_session_state (st : Store) (app user sid : String)
    (config : Option GetSessionConfig) :
    (get_session st app user sid config).map Session.state =
      (getA st.sessions (app, user, sid)).map
        (fun d => mergedStateMap st app user d.state) := by
  cases h : getA st.sessions (app, user, sid) <;>
    simp [get_session, h, merge_state]

theorem applyConfig_none (evs : List Event) : applyConfig none evs = evs := rfl

/-! ### C10: session-id resolution in `create_session` -/

/-- C10: when the supplied session id is absent, empty, or whitespace-only,
`create_session` uses the freshly generated id (the `uuid.uuid4()` draw,
modelled by the `freshId` oracle parameter); a non-blank supplied id is used
with surrounding whitespace stripped. -/
theorem create_session_id_resolution (st : Store) (app user : String)
    (state : Option StateMap) (sidOpt : Option String) (fresh : String) (now : Nat) :
    ((sidOpt = none ∨ ∃ s, sidOpt = some s ∧ pyStrip s = "") →
      (create_session st app user state sidOpt fresh now).2.id = fresh) ∧
    (∀ s, sidOpt = some s → pyStrip s ≠ "" →
      (create_session st app user state sidOpt fresh now).2.id = pyStrip s) := by
  constructor
  · rintro (rfl | ⟨s, rfl, hs⟩)
    · rfl
    · simp [create_session, merge_state, hs]
  · rintro s rfl hs
    simp [create_session, merge_state, hs]

/-- Witness for `create_session_id_resolution` at concrete inputs. -/
theorem create_session_id_resolution_spot :
    (create_session ⟨[], [], [], []⟩ "a" "u" none none "f" 1).2.id = "f" ∧
    (create_session ⟨[], [], [], []⟩ "a" "u" none (some "   ") "f" 1).2.id = "f" ∧
    (create_session ⟨[], [], [], []⟩ "a" "u" none (some " x ") "f" 1).2.id = "x" := by
  refine ⟨(create_session_id_resolution ⟨[], [], [], []⟩ "a" "u" none none "f" 1).1
      (Or.inl rfl),
    (create_session_id_resolution ⟨[], [], [], []⟩ "a" "u" none (some "   ") "f" 1).1
      (Or.inr ⟨"   ", rfl, by decide⟩), ?_⟩
  have h := (create_session_id_resolution ⟨[], [], [], []⟩ "a" "u" none
      (some " x ") "f" 1).2 " x " rfl (by decide)
  rw [h]
  decide

/-! ### C8: duplicate explicit session id -/

/-- C8 counterexample: with a session document already stored at the
explicitly supplied id, `create_session` succeeds and silently replaces the
document (old state and events are gone) instead of failing with a
`DuplicateSessionError`. -/
theorem create_session_duplicate_id_overwrites :
    (create_session
        ⟨[(("a", "u", "s"),
            ⟨"s", "a", "u", [("k", "old")], [⟨"x", 1, none, none⟩], 1⟩)], [], [], []⟩
        "a" "u" (some [("k", "new")]) (some "s") "fresh" 9).1.sessions =
      [(("a", "u", "s"), ⟨"s", "a", "u", [("k", "new")], [], 9⟩)] := by decide

/-- C8 (amended): when the caller explicitly supplies a non-blank id for
which a session document already exists, `create_session` succeeds, returns
a session under that id, and silently overwrites the stored document with a
fresh one (supplied state, empty event list, new timestamp). -/
theorem create_session_duplicate_id_replaces (st : Store) (app user : String)
    (state : Option StateMap) (sid fresh : String) (now : Nat)
    (hs : pyStrip sid ≠ "")
    (hex : (getA st.sessions (app, user, pyStrip sid)).isSome = true) :
    (create_session st app user state (some sid) fresh now).2.id = pyStrip sid ∧
    getA (create_session st app user state (some sid) fresh now).1.sessions
        (app, user, pyStrip sid) =
      some ⟨pyStrip sid, app, user, state.getD [], [], now⟩ := by
  constructor
  · simp [create_session, merge_state, hs]
  · simp only [create_session, hs, ne_eq, not_false_iff, if_true, if_pos]
    exact getA_setA_self _ _ _

/-- Witness for `create_session_duplicate_id_replaces` at concrete inputs. -/
theorem create_session_duplicate_id_replaces_spot :
    (create_session
        ⟨[(("a", "u", "s"), ⟨"s", "a", "u", [("k", "old")], [], 1⟩)], [], [], []⟩
        "a" "u" (some [("k", "new")]) (some "s") "fresh" 9).2.id = "s" ∧
    getA (create_session
        ⟨[(("a", "u", "s"), ⟨"s", "a", "u", [("k", "old")], [], 1⟩)], [], [], []⟩
        "a" "u" (some [("k", "new")]) (some "s") "fresh" 9).1.sessions
        ("a", "u", "s") = some ⟨"s", "a", "u", [("k", "new")], [], 9⟩ := by
  have h := create_session_duplicate_id_replaces
    ⟨[(("a", "u", "s"), ⟨"s", "a", "u", [("k", "old")], [], 1⟩)], [], [], []⟩
    "a" "u" (some [("k", "new")]) "s" "fresh" 9 (by decide) (by decide)
  exact h

/-! ### C2: create/get round trip -/

theorem round_trip_core (st : Store) (app user sid : String) (input : StateMap)
    (now : Nat) (h : ∀ kv ∈ input, unprefKey kv.1 = true) :
    ∃ sess,
      get_session
          ({ st with sessions := setA st.sessions (app, user, sid) ⟨sid, app, user, input, [], now⟩ })
          app user sid none = some sess ∧
        sess.state.filter (fun kv => unprefKey kv.1) = input ∧
        ∀ kv ∈ sess.state, unprefKey kv.1 = true → kv ∈ input := by
  have hdoc : getA (setA st.sessions (app, user, sid)
      ⟨sid, app, user, input, [], now⟩) (app, user, sid) =
      some ⟨sid, app, user, input, [], now⟩ := getA_setA_self _ _ _
  refine ⟨merge_state
      ({ st with sessions := setA st.sessions (app, user, sid) ⟨sid, app, user, input, [], now⟩ })
      app user ⟨app, user, sid, input, [], now⟩, ?_, ?_, ?_⟩
  · show get_session _ app user sid none = _
    simp only [get_session, hdoc]
    rfl
  · show (mergedStateMap _ app user input).filter (fun kv => unprefKey kv.1) = input
    rw [filter_mergedStateMap]
    exact List.filter_eq_self.mpr h
  · intro kv hkv hu
    have hmem : kv ∈ (mergedStateMap
        ({ st with sessions := setA st.sessions (app, user, sid) ⟨sid, app, user, input, [], now⟩ })
        app user input).filter (fun kv => unprefKey kv.1) :=
      List.mem_filter.mpr ⟨hkv, hu⟩
    rw [filter_mergedStateMap, List.filter_eq_self.mpr h] at hmem
    exact hmem

/-- C2: for every valid input whose keys are session-scoped (unprefixed),
`create_session` followed by `get_session` at the same coordinates returns
a session whose unprefixed state equals the input exactly; every further
entry carries a reserved `app:`/`user:` prefix added by the merge. -/
theorem create_get_round_trip (st : Store) (app user : String) (input : StateMap)
    (sidOpt : Option String) (fresh : String) (now : Nat)
    (h : ∀ kv ∈ input, unprefKey kv.1 = true) :
    ∃ sess,
      get_session (create_session st app user (some input) sidOpt fresh now).1
          app user
          (create_session st app user (some input) sidOpt fresh now).2.id none =
        some sess ∧
        sess.state.filter (fun kv => unprefKey kv.1) = input ∧
        ∀ kv ∈ sess.state, unprefKey kv.1 = true → kv ∈ input := by
  cases sidOpt with
  | none => exact round_trip_core st app user fresh input now h
  | some s =>
    by_cases hs : pyStrip s ≠ ""
    · have hcore := round_trip_core st app user (pyStrip s) input now h
      simpa [create_session, merge_state, hs] using hcore
    · have hcore := round_trip_core st app user fresh input now h
      simpa [create_session, merge_state, hs] using hcore

/-- Witness for `create_get_round_trip` at concrete inputs. -/
theorem create_get_round_trip_spot :
    ∃ sess,
      get_session (create_session
          ⟨[], [("a", [("t", "dark")])], [], []⟩ "a" "u"
          (some [("k", "v")]) (some "s1") "f" 3).1 "a" "u"
          (create_session ⟨[], [("a", [("t", "dark")])], [], []⟩ "a" "u"
            (some [("k", "v")]) (some "s1") "f" 3).2.id none = some sess ∧
        sess.state.filter (fun kv => unprefKey kv.1) = [("k", "v")] ∧
        ∀ kv ∈ sess.state, unprefKey kv.1 = true → kv ∈ [("k", "v")] :=
  create_get_round_trip ⟨[], [("a", [("t", "dark")])], [], []⟩ "a" "u"
    [("k", "v")] (some "s1") "f" 3 (by decide)

/-! ### C3: event journaling -/

theorem create_session_doc (st : Store) (app user : String) (state : Option StateMap)
    (sidOpt : Option String) (fresh : String) (now : Nat) :
    getA (create_session st app user state sidOpt fresh now).1.sessions
        (app, user, (create_session st app user state sidOpt fresh now).2.id) =
      some ⟨(create_session st app user state sidOpt fresh now).2.id, app, user,
        state.getD [], [], now⟩ := by
  cases sidOpt with
  | none => exact getA_setA_self _ _ _
  | some s =>
    by_cases hs : pyStrip s ≠ "" <;>
      simp only [create_session, merge_state, hs, if_true, if_false] <;>
      exact getA_setA_self _ _ _

theorem create_session_coords (st : Store) (app user : String)
    (state : Option StateMap) (sidOpt : Option String) (fresh : String) (now : Nat) :
    (create_session st app user state sidOpt fresh now).2.app_name = app ∧
    (create_session st app user state sidOpt fresh now).2.user_id = user := by
  cases sidOpt with
  | none => exact ⟨rfl, rfl⟩
  | some s => by_cases hs : pyStrip s ≠ "" <;> exact ⟨rfl, rfl⟩

theorem appendAll_doc_events (es : List Event) :
    ∀ (st : Store) (s : Session) (evs : List Event),
      (getA st.sessions (s.app_name, s.user_id, s.id)).map SessionDoc.events =
        some evs →
      (getA (appendAll st s es).1.sessions
          (s.app_name, s.user_id, s.id)).map SessionDoc.events = some (evs ++ es) := by
  induction es with
  | nil =>
    intro st s evs h
    simpa [appendAll] using h
  | cons e tl ih =>
    intro st s evs h
    have hfields := append_event_session_fields st s e
    have hstep : (getA (append_event st s e).1.sessions
        (s.app_name, s.user_id, s.id)).map SessionDoc.events = some (evs ++ [e]) := by
      rw [append_event_doc_events, if_pos rfl, h]
      rfl
    have hkey : ((append_event st s e).2.1.app_name, (append_event st s e).2.1.user_id,
        (append_event st s e).2.1.id) = (s.app_name, s.user_id, s.id) := by
      rw [hfields.1, hfields.2.1, hfields.2.2.1]
    have hrec := ih (append_event st s e).1 (append_event st s e).2.1 (evs ++ [e])
      (by rw [hkey]; exact hstep)
    rw [hkey] at hrec
    show (getA (appendAll (append_event st s e).1 (append_event st s e).2.1 tl).1.sessions
        (s.app_name, s.user_id, s.id)).map SessionDoc.events = some (evs ++ e :: tl)
    rw [hrec]
    simp

/-- C3: on a freshly created session, a sequence of `append_event` calls
followed by an unfiltered `get_session` returns exactly the appended events
in call order; and `append_event` always returns its event argument
unchanged. -/
theorem append_events_journal (st : Store) (app user : String)
    (state : Option StateMap) (sidOpt : Option String) (fresh : String) (now : Nat)
    (es : List Event) :
    ((get_session
        (appendAll (create_session st app user state sidOpt fresh now).1
          (create_session st app user state sidOpt fresh now).2 es).1 app user
        (create_session st app user state sidOpt fresh now).2.id none).map
      Session.events = some es) ∧
    ∀ (st2 : Store) (s2 : Session) (e : Event), (append_event st2 s2 e).2.2 = e := by
  refine ⟨?_, fun st2 s2 e => rfl⟩
  have hco := create_session_coords st app user state sidOpt fresh now
  have h0 : (getA (create_session st app user state sidOpt fresh now).1.sessions
      ((create_session st app user state sidOpt fresh now).2.app_name,
        (create_session st app user state sidOpt fresh now).2.user_id,
        (create_session st app user state sidOpt fresh now).2.id)).map
      SessionDoc.events = some [] := by
    rw [hco.1, hco.2, create_session_doc]
    rfl
  have h1 := appendAll_doc_events es
    (create_session st app user state sidOpt fresh now).1
    (create_session st app user state sidOpt fresh now).2 [] h0
  rw [hco.1, hco.2] at h1
  rw [get_session_events]
  have hfun : (fun (d : SessionDoc) => applyConfig none d.events) = SessionDoc.events := rfl
  rw [hfun, h1]
  simp

/-! ### C4: idempotence of a repeated state delta -/

theorem state_proj_two_writes (m : List ((String × String × String) × SessionDoc))
    (sk : String × String × String) (e : Event) (key : String × String × String) :
    (getA (updA (updA m sk (fun d => { d with last_update_time := e.timestamp }))
        sk (fun d => { d with events := d.events ++ [e] })) key).map SessionDoc.state =
      (getA m key).map SessionDoc.state :=
  (getA_updA_proj (updA m sk (fun d => { d with last_update_time := e.timestamp }))
      sk key (fun d => { d with events := d.events ++ [e] }) SessionDoc.state
      (fun d => rfl)).trans
    (getA_updA_proj m sk key (fun d => { d with last_update_time := e.timestamp })
      SessionDoc.state (fun d => rfl))

theorem append_event_single_app (st : Store) (s : Session) (e : Event) (k v : String)
    (he : e.actions = some ⟨[(k, v)]⟩) (h1 : pyStartsWith k appPrefixStr = true) :
    (append_event st s e).1.appState = setA st.appState s.app_name
      (setA ((getA st.appState s.app_name).getD []) (removePrefixPy k appPrefixStr) v) ∧
    (append_event st s e).1.userState = st.userState ∧
    ∀ key, (getA (append_event st s e).1.sessions key).map SessionDoc.state =
      (getA st.sessions key).map SessionDoc.state := by
  refine ⟨?_, ?_, fun key => ?_⟩ <;>
    simp only [append_event, he, List.foldl_cons, List.foldl_nil, applyDelta, h1,
      if_true, eq_self_iff_true, updateSessionDoc] <;>
    first
      | rfl
      | exact state_proj_two_writes st.sessions _ e key

theorem append_event_single_user (st : Store) (s : Session) (e : Event) (k v : String)
    (he : e.actions = some ⟨[(k, v)]⟩) (h1 : pyStartsWith k appPrefixStr = false)
    (h2 : pyStartsWith k userPrefixStr = true) :
    (append_event st s e).1.appState = st.appState ∧
    (append_event st s e).1.userState = setA st.userState (s.app_name, s.user_id)
      (setA ((getA st.userState (s.app_name, s.user_id)).getD [])
        (removePrefixPy k userPrefixStr) v) ∧
    ∀ key, (getA (append_event st s e).1.sessions key).map SessionDoc.state =
      (getA st.sessions key).map SessionDoc.state := by
  refine ⟨?_, ?_, fun key => ?_⟩ <;>
    simp only [append_event, he, List.foldl_cons, List.foldl_nil, applyDelta, h1, h2,
      if_true, Bool.false_eq_true, if_false, eq_self_iff_true, updateSessionDoc] <;>
    first
      | rfl
      | exact state_proj_two_writes st.sessions _ e key

theorem append_event_single_plain (st : Store) (s : Session) (e : Event) (k v : String)
    (he : e.actions = some ⟨[(k, v)]⟩) (h1 : pyStartsWith k appPrefixStr = false)
    (h2 : pyStartsWith k userPrefixStr = false) :
    (append_event st s e).1.appState = st.appState ∧
    (append_event st s e).1.userState = st.userState ∧
    ∀ key, (getA (append_event st s e).1.sessions key).map SessionDoc.state =
      if (s.app_name, s.user_id, s.id) = key
      then ((getA st.sessions key).map SessionDoc.state).map (fun m => setA m k v)
      else (getA st.sessions key).map SessionDoc.state := by
  refine ⟨?_, ?_, fun key => ?_⟩
  · simp only [append_event, he, List.foldl_cons, List.foldl_nil, applyDelta, h1, h2,
      Bool.false_eq_true, if_false, updateSessionDoc]
  · simp only [append_event, he, List.foldl_cons, List.foldl_nil, applyDelta, h1, h2,
      Bool.false_eq_true, if_false, updateSessionDoc]
  · simp only [append_event, he, List.foldl_cons, List.foldl_nil, applyDelta, h1, h2,
      Bool.false_eq_true, if_false, updateSessionDoc]
    rw [state_proj_two_writes]
    rw [getA_updA]
    by_cases hkey : (s.app_name, s.user_id, s.id) = key
    · rw [if_pos hkey, if_pos hkey, hkey]
      cases getA st.sessions key <;> simp
    · rw [if_neg hkey, if_neg hkey]

theorem effState_congr (st1 st2 : Store)
    (happ : st2.appState = st1.appState) (huser : st2.userState = st1.userState)
    (hsess : ∀ key, (getA st2.sessions key).map SessionDoc.state =
      (getA st1.sessions key).map SessionDoc.state) (a u i : String) :
    effState st2 a u i = effState st1 a u i := by
  unfold effState
  rw [get_session_state, get_session_state]
  have hk := hsess (a, u, i)
  cases h1 : getA st1.sessions (a, u, i) with
  | none =>
    rw [h1] at hk
    cases h2 : getA st2.sessions (a, u, i) with
    | none => simp
    | some d => rw [h2] at hk; simp at hk
  | some d1 =>
    rw [h1] at hk
    cases h2 : getA st2.sessions (a, u, i) with
    | none => rw [h2] at hk; simp at hk
    | some d2 =>
      rw [h2] at hk
      simp only [Option.map_some'] at hk
      have hds : d2.state = d1.state := Option.some.inj hk
      simp only [Option.map_some']
      have hm : mergedStateMap st2 a u d2.state = mergedStateMap st1 a u d1.state := by
        unfold mergedStateMap
        rw [happ, huser, hds]
      rw [hm]

/-- C4: appending the same event carrying a single state-delta pair twice
leaves the same stored scope state, the same stored per-session state, and
the same effective (merged) state everywhere as appending it once. -/
theorem append_event_delta_idempotent (st : Store) (s : Session) (e : Event)
    (k v : String) (he : e.actions = some ⟨[(k, v)]⟩) :
    (append_event (append_event st s e).1 (append_event st s e).2.1 e).1.appState =
      (append_event st s e).1.appState ∧
    (append_event (append_event st s e).1 (append_event st s e).2.1 e).1.userState =
      (append_event st s e).1.userState ∧
    (∀ key, (getA (append_event (append_event st s e).1
        (append_event st s e).2.1 e).1.sessions key).map SessionDoc.state =
      (getA (append_event st s e).1.sessions key).map SessionDoc.state) ∧
    ∀ a u i, effState (append_event (append_event st s e).1
        (append_event st s e).2.1 e).1 a u i =
      effState (append_event st s e).1 a u i := by
  have hf := append_event_session_fields st s e
  suffices hsuf :
      (append_event (append_event st s e).1 (append_event st s e).2.1 e).1.appState =
        (append_event st s e).1.appState ∧
      (append_event (append_event st s e).1 (append_event st s e).2.1 e).1.userState =
        (append_event st s e).1.userState ∧
      ∀ key, (getA (append_event (append_event st s e).1
          (append_event st s e).2.1 e).1.sessions key).map SessionDoc.state =
        (getA (append_event st s e).1.sessions key).map SessionDoc.state by
    exact ⟨hsuf.1, hsuf.2.1, hsuf.2.2,
      fun a u i => effState_congr _ _ hsuf.1 hsuf.2.1 hsuf.2.2 a u i⟩
  cases h1 : pyStartsWith k appPrefixStr with
  | true =>
    obtain ⟨a1, a2, a3⟩ := append_event_single_app st s e k v he h1
    obtain ⟨b1, b2, b3⟩ := append_event_single_app (append_event st s e).1
      (append_event st s e).2.1 e k v he h1
    refine ⟨?_, b2, b3⟩
    rw [b1, hf.1, a1, getA_setA_self]
    simp only [Option.getD_some]
    rw [setA_setA_self, setA_setA_self]
  | false =>
    cases h2 : pyStartsWith k userPrefixStr with
    | true =>
      obtain ⟨a1, a2, a3⟩ := append_event_single_user st s e k v he h1 h2
      obtain ⟨b1, b2, b3⟩ := append_event_single_user (append_event st s e).1
        (append_event st s e).2.1 e k v he h1 h2
      refine ⟨b1, ?_, b3⟩
      rw [b2, hf.1, hf.2.1, a2, getA_setA_self]
      simp only [Option.getD_some]
      rw [setA_setA_self, setA_setA_self]
    | false =>
      obtain ⟨a1, a2, a3⟩ := append_event_single_plain st s e k v he h1 h2
      obtain ⟨b1, b2, b3⟩ := append_event_single_plain (append_event st s e).1
        (append_event st s e).2.1 e k v he h1 h2
      refine ⟨b1, b2, fun key => ?_⟩
      rw [b3 key, hf.1, hf.2.1, hf.2.2.1, a3 key]
      by_cases hkey : (s.app_name, s.user_id, s.id) = key
      · rw [if_pos hkey, if_pos hkey]
        cases getA st.sessions key <;> simp [setA_setA_self]
      · rw [if_neg hkey, if_neg hkey]

/-- Witness for `append_event_delta_idempotent` at a concrete input. -/
theorem append_event_delta_idempotent_spot :
    effState (append_event
        (append_event ⟨[(("a", "u", "s"), ⟨"s", "a", "u", [], [], 0⟩)], [], [], []⟩
          ⟨"a", "u", "s", [], [], 0⟩ ⟨"u", 3, none, some ⟨[("app:t", "d")]⟩⟩).1
        (append_event ⟨[(("a", "u", "s"), ⟨"s", "a", "u", [], [], 0⟩)], [], [], []⟩
          ⟨"a", "u", "s", [], [], 0⟩ ⟨"u", 3, none, some ⟨[("app:t", "d")]⟩⟩).2.1
        ⟨"u", 3, none, some ⟨[("app:t", "d")]⟩⟩).1 "a" "u" "s" =
      effState (append_event ⟨[(("a", "u", "s"), ⟨"s", "a", "u", [], [], 0⟩)], [], [], []⟩
        ⟨"a", "u", "s", [], [], 0⟩ ⟨"u", 3, none, some ⟨[("app:t", "d")]⟩⟩).1 "a" "u" "s" :=
  (append_event_delta_idempotent
    ⟨[(("a", "u", "s"), ⟨"s", "a", "u", [], [], 0⟩)], [], [], []⟩
    ⟨"a", "u", "s", [], [], 0⟩ ⟨"u", 3, none, some ⟨[("app:t", "d")]⟩⟩
    "app:t" "d" rfl).2.2.2 "a" "u" "s"

/-! ### C5: `get_session` filter semantics -/

/-- C5 counterexample: a recent-events window of `N = 0` does not return
"exactly the last 0 events" (the empty list); because `0` is falsy, the
filter is skipped and the full event list is returned. -/
theorem get_session_window_zero_returns_all :
    (get_session ⟨[(("a", "u", "s"), ⟨"s", "a", "u", [], [⟨"x", 7, none, none⟩], 7⟩)],
        [], [], []⟩ "a" "u" "s" (some ⟨some 0, none⟩)).map Session.events =
      some [⟨"x", 7, none, none⟩] ∧
    lastN 0 [(⟨"x", 7, none, none⟩ : Event)] = [] := by decide

/-- C5 (amended): for a stored session, a recent-events window of `N ≥ 1`
returns exactly the last `N` events (all of them when fewer exist); a time
lower bound `T` returns exactly the events with `timestamp ≥ T`; both
together return the timestamp-filtered trailing window (their
intersection).  A window of `0` is treated as no filter. -/
theorem get_session_filter_semantics (st : Store) (app user sid : String)
    (doc : SessionDoc) (h : getA st.sessions (app, user, sid) = some doc) :
    (∀ N, 1 ≤ N →
      (get_session st app user sid (some ⟨some N, none⟩)).map Session.events =
        some (lastN N doc.events)) ∧
    (∀ T, (get_session st app user sid (some ⟨none, some T⟩)).map Session.events =
      some (doc.events.filter (fun e2 => T ≤ e2.timestamp))) ∧
    (∀ N T, 1 ≤ N →
      (get_session st app user sid (some ⟨some N, some T⟩)).map Session.events =
        some ((lastN N doc.events).filter (fun e2 => T ≤ e2.timestamp))) ∧
    (get_session st app user sid (some ⟨some 0, none⟩)).map Session.events =
      some doc.events := by
  refine ⟨fun N hN => ?_, fun T => ?_, fun N T hN => ?_, ?_⟩
  · rw [get_session_events, h]
    have hN0 : N ≠ 0 := Nat.one_le_iff_ne_zero.mp hN
    simp [applyConfig, hN0]
  · rw [get_session_events, h]
    by_cases hT : T = 0
    · subst hT
      have : doc.events.filter (fun e2 => decide (0 ≤ e2.timestamp)) = doc.events :=
        List.filter_eq_self.mpr (fun a _ => by simp)
      simp [applyConfig, this]
    · simp [applyConfig, hT]
  · rw [get_session_events, h]
    have hN0 : N ≠ 0 := Nat.one_le_iff_ne_zero.mp hN
    by_cases hT : T = 0
    · subst hT
      have : (lastN N doc.events).filter (fun e2 => decide (0 ≤ e2.timestamp)) =
          lastN N doc.events := List.filter_eq_self.mpr (fun a _ => by simp)
      simp [applyConfig, hN0, this]
    · simp [applyConfig, hN0, hT]
  · rw [get_session_events, h]
    simp [applyConfig]

/-- Witness for `get_session_filter_semantics` at a concrete store. -/
theorem get_session_filter_semantics_spot :
    ((get_session ⟨[(("a", "u", "s"),
        ⟨"s", "a", "u", [], [⟨"x", 1, none, none⟩, ⟨"y", 5, none, none⟩,
          ⟨"z", 9, none, none⟩], 9⟩)], [], [], []⟩ "a" "u" "s"
        (some ⟨some 2, none⟩)).map Session.events =
      some (lastN 2 [⟨"x", 1, none, none⟩, ⟨"y", 5, none, none⟩,
        ⟨"z", 9, none, none⟩])) ∧
    ((get_session ⟨[(("a", "u", "s"),
        ⟨"s", "a", "u", [], [⟨"x", 1, none, none⟩, ⟨"y", 5, none, none⟩,
          ⟨"z", 9, none, none⟩], 9⟩)], [], [], []⟩ "a" "u" "s"
        (some ⟨none, some 5⟩)).map Session.events =
      some ([(⟨"x", 1, none, none⟩ : Event), ⟨"y", 5, none, none⟩,
        ⟨"z", 9, none, none⟩].filter (fun e2 => 5 ≤ e2.timestamp))) ∧
    ((get_session ⟨[(("a", "u", "s"),
        ⟨"s", "a", "u", [], [⟨"x", 1, none, none⟩, ⟨"y", 5, none, none⟩,
          ⟨"z", 9, none, none⟩], 9⟩)], [], [], []⟩ "a" "u" "s"
        (some ⟨some 2, some 9⟩)).map Session.events =
      some ((lastN 2 [(⟨"x", 1, none, none⟩ : Event), ⟨"y", 5, none, none⟩,
        ⟨"z", 9, none, none⟩]).filter (fun e2 => 9 ≤ e2.timestamp))) := by
  obtain ⟨w1, w2, w3, _⟩ := get_session_filter_semantics
    ⟨[(("a", "u", "s"),
        ⟨"s", "a", "u", [], [⟨"x", 1, none, none⟩, ⟨"y", 5, none, none⟩,
          ⟨"z", 9, none, none⟩], 9⟩)], [], [], []⟩ "a" "u" "s"
    ⟨"s", "a", "u", [], [⟨"x", 1, none, none⟩, ⟨"y", 5, none, none⟩,
      ⟨"z", 9, none, none⟩], 9⟩ rfl
  exact ⟨w1 2 (by decide), w2 5, w3 2 9 (by decide)⟩

/-! ### C6: order of the two event filters -/

/-- C6 counterexample: on an event sequence whose timestamps decrease,
applying the trailing window before the timestamp filter differs from the
opposite order (window 1, bound 2, events with timestamps 5 then 1). -/
theorem filter_order_matters :
    (lastN 1 [(⟨"u", 5, none, none⟩ : Event), ⟨"u", 1, none, none⟩]).filter
        (fun e2 => 2 ≤ e2.timestamp) ≠
      lastN 1 ([(⟨"u", 5, none, none⟩ : Event), ⟨"u", 1, none, none⟩].filter
        (fun e2 => 2 ≤ e2.timestamp)) := by decide

theorem lastN_eq_reverse_take (n : Nat) (xs : List Event) :
    lastN n xs = (xs.reverse.take n).reverse := by
  apply List.reverse_injective
  rw [List.reverse_reverse]
  unfold lastN
  rw [List.reverse_drop]
  by_cases hn : n ≤ xs.length
  · rw [Nat.sub_sub_self hn]
  · have hle : xs.length ≤ n := Nat.le_of_not_le hn
    rw [Nat.sub_eq_zero_of_le hle, Nat.sub_zero]
    rw [List.take_of_length_le (by rw [List.length_reverse]),
      List.take_of_length_le (by rw [List.length_reverse]; exact hle)]

theorem filter_take_of_downward (p : Event → Bool) (l : List Event)
    (h : l.Pairwise (fun a b => p a = false → p b = false)) :
    ∀ N, (l.take N).filter p = (l.filter p).take N := by
  induction l with
  | nil => intro N; simp
  | cons r tl ih =>
    intro N
    cases N with
    | zero => simp
    | succ n =>
      rw [List.take_succ_cons]
      cases hr : p r with
      | true =>
        rw [List.filter_cons_of_pos (by rw [hr]), List.filter_cons_of_pos (by rw [hr]),
          List.take_succ_cons, ih (List.pairwise_cons.mp h).2 n]
      | false =>
        have hall : ∀ b ∈ tl, p b = false :=
          fun b hb => (List.pairwise_cons.mp h).1 b hb hr
        rw [List.filter_cons_of_neg (by rw [hr]; simp),
          List.filter_cons_of_neg (by rw [hr]; simp)]
        have h1 : (tl.take n).filter p = [] := List.filter_eq_nil_iff.mpr
          (fun a ha => by rw [hall a (List.mem_of_mem_take ha)]; simp)
        have h2 : tl.filter p = [] := List.filter_eq_nil_iff.mpr
          (fun a ha => by rw [hall a ha]; simp)
        rw [h1, h2, List.take_nil]

/-- C6 (amended): on an event sequence with non-decreasing timestamps — the
append order the store produces — applying the trailing window and the
timestamp lower bound in either order gives the same result. -/
theorem filter_order_commutes (es : List Event) (N T : Nat)
    (hsort : es.Pairwise (fun a b => a.timestamp ≤ b.timestamp)) :
    (lastN N es).filter (fun e2 => T ≤ e2.timestamp) =
      lastN N (es.filter (fun e2 => T ≤ e2.timestamp)) := by
  rw [lastN_eq_reverse_take, lastN_eq_reverse_take,
    List.filter_reverse (fun e2 => decide (T ≤ e2.timestamp)) (es.reverse.take N),
    ← List.filter_reverse (fun e2 => decide (T ≤ e2.timestamp)) es]
  have hrev : es.reverse.Pairwise
      (fun a b => (decide (T ≤ a.timestamp)) = false →
        (decide (T ≤ b.timestamp)) = false) := by
    refine (List.pairwise_reverse.mpr hsort).imp ?_
    intro a b hba hfa
    simp only [decide_eq_false_iff_not, not_le] at hfa ⊢
    exact Nat.lt_of_le_of_lt hba hfa
  rw [filter_take_of_downward _ _ hrev N]

/-- Witness for `filter_order_commutes` at a concrete sorted input. -/
theorem filter_order_commutes_spot :
    (lastN 1 [(⟨"u", 1, none, none⟩ : Event), ⟨"u", 5, none, none⟩]).filter
        (fun e2 => 2 ≤ e2.timestamp) =
      lastN 1 ([(⟨"u", 1, none, none⟩ : Event), ⟨"u", 5, none, none⟩].filter
        (fun e2 => 2 ≤ e2.timestamp)) :=
  filter_order_commutes [⟨"u", 1, none, none⟩, ⟨"u", 5, none, none⟩] 1 2
    (by decide)

/-! ### C1: scope isolation of `app:`-prefixed deltas -/

/-- C1: an `app:`-prefixed state delta is routed only to the app-scope
document: the user-scope map and the state of every stored session document are
untouched, and afterwards the merged effective state of every stored
session of that app — any user — contains the delta under its `app:` key.
The hypothesis asks the app-scope document for distinct keys, which every
store reachable through the service maintains. -/
theorem app_delta_scope_isolation (st : Store) (s : Session) (e : Event)
    (x v : String) (he : e.actions = some ⟨[(appPrefixStr ++ x, v)]⟩)
    (hnd : (((getA st.appState s.app_name).getD []).map Prod.fst).Nodup) :
    (append_event st s e).1.userState = st.userState ∧
    (∀ key, (getA (append_event st s e).1.sessions key).map SessionDoc.state =
      (getA st.sessions key).map SessionDoc.state) ∧
    ∀ u2 sid2 sess,
      get_session (append_event st s e).1 s.app_name u2 sid2 none = some sess →
      getA sess.state (appPrefixStr ++ x) = some v := by
  have h1 : pyStartsWith (appPrefixStr ++ x) appPrefixStr = true :=
    pyStartsWith_append _ _
  obtain ⟨a1, a2, a3⟩ := append_event_single_app st s e (appPrefixStr ++ x) v he h1
  refine ⟨a2, a3, ?_⟩
  intro u2 sid2 sess hget
  have hstate := get_session_state (append_event st s e).1 s.app_name u2 sid2 none
  rw [hget] at hstate
  cases hdoc : getA (append_event st s e).1.sessions (s.app_name, u2, sid2) with
  | none => rw [hdoc] at hstate; simp at hstate
  | some doc =>
    rw [hdoc] at hstate
    simp only [Option.map_some'] at hstate
    have hss : sess.state =
        mergedStateMap (append_event st s e).1 s.app_name u2 doc.state :=
      Option.some.inj hstate
    rw [hss]
    unfold mergedStateMap
    rw [getA_mergeScope_ne _ _ _ _ (fun kv _ => user_ne_app kv.1 x)]
    have happ : (getA (append_event st s e).1.appState s.app_name).getD [] =
        setA ((getA st.appState s.app_name).getD []) x v := by
      rw [a1, getA_setA_self, removePrefixPy_append]
      rfl
    rw [happ]
    exact getA_mergeScope_mem appPrefixStr _ _ x v
      (keys_setA_nodup _ _ _ hnd) (mem_setA_self _ _ _)

/-- Witness for `app_delta_scope_isolation` at a concrete two-user store. -/
theorem app_delta_scope_isolation_spot :
    (append_event twoUserStore ⟨"a", "u1", "s1", [], [], 0⟩ appDeltaEv).1.userState =
      twoUserStore.userState ∧
    ((getA (append_event twoUserStore ⟨"a", "u1", "s1", [], [], 0⟩
        appDeltaEv).1.sessions ("a", "u2", "s2")).map SessionDoc.state =
      (getA twoUserStore.sessions ("a", "u2", "s2")).map SessionDoc.state) ∧
    (get_session (append_event twoUserStore ⟨"a", "u1", "s1", [], [], 0⟩
        appDeltaEv).1 "a" "u2" "s2" none).map
        (fun sess => getA sess.state (appPrefixStr ++ "x")) = some (some "dark") := by
  obtain ⟨h1, h2, h3⟩ := app_delta_scope_isolation twoUserStore
    ⟨"a", "u1", "s1", [], [], 0⟩ appDeltaEv "x" "dark" (by decide) (by decide)
  refine ⟨h1, h2 _, ?_⟩
  cases hg : get_session (append_event twoUserStore ⟨"a", "u1", "s1", [], [], 0⟩
      appDeltaEv).1 "a" "u2" "s2" none with
  | none => exact absurd hg (by decide)
  | some sess =>
    simp only [Option.map_some']
    rw [h3 "u2" "s2" sess hg]

/-! ### C9: memory ingestion -/

/-- C9: `add_session_to_memory` stores under the session id exactly those
events of the session carrying non-empty content, leaving the slices of all
other sessions untouched; with no such event it is a no-op (the memory document is
neither created nor changed); and ingesting the same session twice leaves
the store exactly as ingesting it once (full replace, not cumulative). -/
theorem add_session_to_memory_spec (st : Store) (s : Session) :
    (s.events.filter hasContentParts = [] → add_session_to_memory st s = st) ∧
    (s.events.filter hasContentParts ≠ [] →
      ∃ doc, getA (add_session_to_memory st s).memory (s.app_name, s.user_id) =
          some doc ∧
        getA doc s.id = some (s.events.filter hasContentParts) ∧
        ∀ sid2, sid2 ≠ s.id →
          getA doc sid2 =
            getA ((getA st.memory (s.app_name, s.user_id)).getD []) sid2) ∧
    add_session_to_memory (add_session_to_memory st s) s =
      add_session_to_memory st s := by
  refine ⟨fun hnil => ?_, fun hne => ?_, ?_⟩
  · simp [add_session_to_memory, hnil]
  · have hne2 : (s.events.filter hasContentParts).isEmpty = false := by
      simpa [List.isEmpty_iff] using hne
    simp only [add_session_to_memory, hne2, Bool.false_eq_true, if_false]
    refine ⟨_, getA_setA_self _ _ _, getA_setA_self _ _ _, fun sid2 hsid2 => ?_⟩
    exact getA_setA_ne _ _ _ _ (fun hh => hsid2 hh.symm)
  · by_cases hnil : (s.events.filter hasContentParts).isEmpty
    · simp [add_session_to_memory, hnil]
    · have hne2 : (s.events.filter hasContentParts).isEmpty = false := by
        simpa using hnil
      simp only [add_session_to_memory, hne2, Bool.false_eq_true, if_false,
        getA_setA_self, Option.getD_some, setA_setA_self]

/-- Witness for `add_session_to_memory_spec` at concrete sessions. -/
theorem add_session_to_memory_spec_spot :
    (add_session_to_memory ⟨[], [], [], []⟩
      ⟨"a", "u", "s", [], [⟨"x", 1, none, none⟩], 1⟩ = ⟨[], [], [], []⟩) ∧
    ∃ doc, getA (add_session_to_memory ⟨[], [], [], []⟩
        ⟨"a", "u", "s", [],
          [⟨"x", 1, some ⟨"user", [⟨some "hi"⟩]⟩, none⟩, ⟨"y", 2, none, none⟩],
          2⟩).memory ("a", "u") = some doc ∧
      getA doc "s" = some [⟨"x", 1, some ⟨"user", [⟨some "hi"⟩]⟩, none⟩] := by
  constructor
  · exact (add_session_to_memory_spec ⟨[], [], [], []⟩
      ⟨"a", "u", "s", [], [⟨"x", 1, none, none⟩], 1⟩).1 (by decide)
  · obtain ⟨doc, hdoc, hslice, _⟩ := (add_session_to_memory_spec ⟨[], [], [], []⟩
      ⟨"a", "u", "s", [],
        [⟨"x", 1, some ⟨"user", [⟨some "hi"⟩]⟩, none⟩, ⟨"y", 2, none, none⟩],
        2⟩).2.1 (by decide)
    exact ⟨doc, hdoc, by rw [hslice]; decide⟩

/-! ### C7: `search_memory` match semantics -/

theorem alphaRunsAux_sep (c : Char) (hc : c.isAlpha = false) (ys : List Char) :
    ∀ (xs : List Char) (acc : List Char),
      alphaRunsAux (xs ++ c :: ys) acc = alphaRunsAux xs acc ++ alphaRunsAux ys [] := by
  intro xs
  induction xs with
  | nil =>
    intro acc
    cases hacc : acc.isEmpty <;>
      simp [alphaRunsAux, hc, hacc]
  | cons x xt ih =>
    intro acc
    cases hx : x.isAlpha with
    | true => simp [alphaRunsAux, hx, ih]
    | false =>
      cases hacc : acc.isEmpty <;>
        simp [alphaRunsAux, hx, hacc, ih]

theorem wordsLower_nil : wordsLower "" = [] := rfl

theorem wordsLower_join (ts : List String) :
    wordsLower (joinSpace ts) = (ts.map wordsLower).flatten := by
  induction ts with
  | nil => rfl
  | cons t tl ih =>
    cases tl with
    | nil => simp [joinSpace, wordsLower]
    | cons t2 tl2 =>
      have hdata : (t ++ " " ++ joinSpace (t2 :: tl2)).data =
          t.data ++ ' ' :: (joinSpace (t2 :: tl2)).data := by
        rw [String.data_append, String.data_append]
        simp
      show wordsLower (t ++ " " ++ joinSpace (t2 :: tl2)) = _
      unfold wordsLower
      rw [hdata, alphaRunsAux_sep ' ' (by decide) _ _ _, List.map_append]
      show wordsLower t ++ wordsLower (joinSpace (t2 :: tl2)) = _
      rw [ih]
      rfl

theorem filterMap_texts_eq (ps : List Part) :
    ps.filterMap (fun p =>
      match p.text with
      | some t => if t = "" then none else some t
      | none => none) =
    (ps.filterMap Part.text).filter (fun t => t ≠ "") := by
  induction ps with
  | nil => rfl
  | cons p tl ih =>
    cases hp : p.text with
    | none => simp [List.filterMap_cons, hp, ih]
    | some t =>
      by_cases ht : t = "" <;>
        simp [List.filterMap_cons, hp, ht, ih, List.filter_cons]

theorem words_flatten_filter (ts : List String) :
    ((ts.filter (fun t => t ≠ "")).map wordsLower).flatten =
      (ts.map wordsLower).flatten := by
  induction ts with
  | nil => rfl
  | cons t tl ih =>
    by_cases ht : t = ""
    · subst ht
      rw [List.filter_cons, if_neg (by simp), ih, List.map_cons, List.flatten_cons,
        wordsLower_nil, List.nil_append]
    · rw [List.filter_cons, if_pos (by simp [ht]), List.map_cons, List.flatten_cons,
        ih, List.map_cons, List.flatten_cons]

theorem eventWords_eq (e : Event) (c : Content) (hc : e.content = some c) :
    eventWords e = wordsLower (joinSpace (partTexts c)) := by
  unfold eventWords allTexts partTexts
  rw [hc, wordsLower_join, wordsLower_join, filterMap_texts_eq, words_flatten_filter]

theorem contains_iff (l : List String) (w : String) : l.contains w = true ↔ w ∈ l := by
  simp

theorem any_contains_comm (l1 l2 : List String) :
    l1.any (fun w => l2.contains w) = l2.any (fun w => l1.contains w) := by
  rw [Bool.eq_iff_iff, List.any_eq_true, List.any_eq_true]
  constructor
  · rintro ⟨w, hw, hc⟩
    exact ⟨w, (contains_iff _ _).mp hc, (contains_iff _ _).mpr hw⟩
  · rintro ⟨w, hw, hc⟩
    exact ⟨w, (contains_iff _ _).mp hc, (contains_iff _ _).mpr hw⟩

theorem eventMatchStep_eq (q : String) (acc : List MemoryEntry) (e : Event) :
    eventMatchStep (wordsLower q) acc e =
      acc ++ (specProject q e).toList := by
  cases he : e.content with
  | none => simp [eventMatchStep, specProject, he]
  | some c =>
    by_cases hp : c.parts.isEmpty
    · have hm : specMatches q e = false := by
        unfold specMatches
        rw [eventWords_eq e c he]
        unfold partTexts
        rw [List.isEmpty_iff.mp hp]
        rfl
      simp [eventMatchStep, specProject, he, hp, hm]
    · by_cases ht : (partTexts c).isEmpty
      · have hm : specMatches q e = false := by
          unfold specMatches
          rw [eventWords_eq e c he, List.isEmpty_iff.mp ht]
          rfl
        simp [eventMatchStep, specProject, he, hp, ht, hm]
      · by_cases hw : (wordsLower (joinSpace (partTexts c))).isEmpty
        · have hm : specMatches q e = false := by
            unfold specMatches
            rw [eventWords_eq e c he, List.isEmpty_iff.mp hw]
            rfl
          simp [eventMatchStep, specProject, he, hp, ht, hw, hm]
        · have hm : specMatches q e =
              (wordsLower q).any
                (fun w => (wordsLower (joinSpace (partTexts c))).contains w) := by
            unfold specMatches
            rw [eventWords_eq e c he, any_contains_comm]
          simp only [eventMatchStep, specProject, he, hm]
          rw [if_neg hp, if_neg ht, if_neg hw]
          cases hmatch : (wordsLower q).any
              (fun w => (wordsLower (joinSpace (partTexts c))).contains w) <;>
            simp [hmatch]

theorem foldl_eventMatchStep (q : String) (evs : List Event) :
    ∀ acc, evs.foldl (eventMatchStep (wordsLower q)) acc =
      acc ++ evs.filterMap (specProject q) := by
  induction evs with
  | nil => intro acc; simp
  | cons e tl ih =>
    intro acc
    rw [List.foldl_cons, ih, eventMatchStep_eq]
    cases hpr : specProject q e with
    | none => simp [List.filterMap_cons, hpr]
    | some entry => simp [List.filterMap_cons, hpr]

theorem search_memory_found (st : Store) (app user q : String)
    (doc : List (String × List Event))
    (hdoc : getA st.memory (app, user) = some doc) :
    search_memory st app user q = specSearch doc q := by
  simp only [search_memory, hdoc]
  have main : ∀ (d : List (String × List Event)) (acc : List MemoryEntry),
      d.foldl (fun acc kv => kv.2.foldl (eventMatchStep (wordsLower q)) acc) acc =
        acc ++ specSearch d q := by
    intro d
    induction d with
    | nil =>
      intro acc
      simp [specSearch, docEvents]
    | cons hd tl ih =>
      intro acc
      rw [List.foldl_cons, foldl_eventMatchStep, ih]
      have hcons : specSearch (hd :: tl) q =
          hd.2.filterMap (specProject q) ++ specSearch tl q := by
        unfold specSearch docEvents
        simp [List.filterMap_append]
      rw [hcons, List.append_assoc]
  simpa using main doc []

/-- C7: `search_memory` returns an entry for a stored event iff its
concatenated text, tokenized into lowercase alphabetic words, shares at
least one word with the query tokenized the same way (the result equals a
filter-and-project over the stored events); a query with no alphabetic
content returns no matches; an absent memory document yields an empty
result, not an error. -/
theorem search_memory_semantics (st : Store) (app user q : String) :
    (getA st.memory (app, user) = none → search_memory st app user q = []) ∧
    (wordsLower q = [] → search_memory st app user q = []) ∧
    ∀ doc, getA st.memory (app, user) = some doc →
      search_memory st app user q = specSearch doc q := by
  refine ⟨fun habs => ?_, fun hq => ?_,
    fun doc hdoc => search_memory_found st app user q doc hdoc⟩
  · simp [search_memory, habs]
  · cases hdoc : getA st.memory (app, user) with
    | none => simp [search_memory, hdoc]
    | some doc =>
      rw [search_memory_found st app user q doc hdoc]
      unfold specSearch
      rw [List.filterMap_eq_nil_iff.mpr]
      intro e he2
      unfold specProject
      cases hc : e.content with
      | none => rfl
      | some c =>
        have hm : specMatches q e = false := by
          unfold specMatches
          rw [hq]
          simp
        rw [hm]
        simp

/-- Witness for `search_memory_semantics` at concrete stores. -/
theorem search_memory_semantics_spot :
    search_memory ⟨[], [], [], []⟩ "a" "u" "hello" = [] ∧
    search_memory memStore "a" "u" "999 !!" = [] ∧
    search_memory memStore "a" "u" "say hello" =
      [eventEntry ⟨"user", [⟨some "Hello world"⟩]⟩ memEv] := by
  refine ⟨(search_memory_semantics ⟨[], [], [], []⟩ "a" "u" "hello").1 rfl,
    (search_memory_semantics memStore "a" "u" "999 !!").2.1 (by decide), ?_⟩
  rw [(search_memory_semantics memStore "a" "u" "say hello").2.2
    [("s1", [memEv])] rfl]
  decide

end AIT
